import Mathlib

/-!
Shallow embedding of the `sosdb` crate (`src/lib.rs`): a typed scalar value
codec (`Value`, its `Display` impl and its `TryFrom<&str>` impl), named
objects (`Object`), and a database (`Database`) with a line-oriented
loader (`Database::load`) and writer (`Display for Database`).

Modelling conventions:
* Rust `&str` / `String` values are modelled as `List Char` (the code walks
  strings through `chars()`); `chs` converts a Lean string literal.
* Rust `i32` is modelled as the subtype `I32` of integers in
  `[-2^31, 2^31)`.
* Rust `f32` together with its `Display`/`FromStr` implementations is a
  standard-library primitive, so the development is parametric in the float
  payload type `F` and its formatting (`fF`) and parsing (`pF`) functions.
* A Rust panic (the `assert_eq!` in `TryFrom`, or an out-of-bounds /
  non-boundary byte slice `&line[2..]`) is modelled as an explicit
  `fatal` outcome; `Result::Err` values are the `err` outcome.
* `HashMap` is modelled as an association list with replace-on-insert;
  lookups are positional on the first matching key, removal filters the
  key out. Iteration order (unspecified for `HashMap`) is list order.
-/

namespace Sosdb


/-- Characters of a string literal (Rust `str::chars`). -/
def chs (s : String) : List Char := s.data

/-- The Rust `i32` type: integers in `[-2^31, 2^31)`. -/
abbrev I32 := {n : ℤ // -(2 ^ 31) ≤ n ∧ n < 2 ^ 31}

/-- `enum Value` from `src/lib.rs`, parametric in the `f32` payload type. -/
inductive Value (F : Type) where
| Str : List Char → Value F
| Int : I32 → Value F
| Float : F → Value F
| Bool : Bool → Value F
deriving DecidableEq

/-- `enum ValueParseError` from `src/lib.rs`. -/
inductive ValueParseError where
| InvalidType
| InvalidValue
| ValueIsEmpty
deriving DecidableEq

/-- Outcome of `Value::try_from`: success, a returned `Err`, or a process
abort (`assert_eq!` failure). -/
inductive DecodeResult (F : Type) where
| ok : Value F → DecodeResult F
| err : ValueParseError → DecodeResult F
| fatal : DecodeResult F
deriving DecidableEq

/-- `char::to_digit(10)` (used by integer parsing): the value of a decimal
digit character. -/
def digitVal? (c : Char) : Option Nat :=
  if '0' ≤ c ∧ c ≤ '9' then some (c.toNat - '0'.toNat) else none

/-- Accumulating decimal parser over the digit characters, the loop inside
Rust's `from_str_radix` specialised to radix 10; `none` on a non-digit.
Overflow is checked against the `i32` bounds in `parseI32` — for decimal
accumulation the incremental checked arithmetic of `from_str_radix`
rejects exactly the strings whose mathematical value is out of range. -/
def parseNatAcc (acc : Nat) : List Char → Option Nat
| [] => some acc
| c :: rest =>
  match digitVal? c with
  | some d => parseNatAcc (acc * 10 + d) rest
  | none => none

/-- Range check on the magnitude of a non-negative parse result
(`i32::MAX` bound of `from_str`). -/
def mkPosI32 (n : Nat) : Option I32 :=
  if h : (n : ℤ) < 2 ^ 31 then
    some ⟨(n : ℤ), ⟨le_trans (by norm_num) (Int.natCast_nonneg n), h⟩⟩
  else none

/-- Range check on the magnitude of a negated parse result
(`i32::MIN` bound of `from_str`). -/
def mkNegI32 (n : Nat) : Option I32 :=
  if h : (n : ℤ) ≤ 2 ^ 31 then
    some ⟨-(n : ℤ), ⟨neg_le_neg h,
      lt_of_le_of_lt (neg_nonpos.mpr (Int.natCast_nonneg n)) (by norm_num)⟩⟩
  else none

/-- Rust `i32::from_str`: optional sign, then a nonempty run of decimal
digits, with a range check. -/
def parseI32 : List Char → Option I32
| [] => none
| c :: rest =>
  if c = '+' then
    if rest.isEmpty then none else (parseNatAcc 0 rest).bind mkPosI32
  else if c = '-' then
    if rest.isEmpty then none else (parseNatAcc 0 rest).bind mkNegI32
  else (parseNatAcc 0 (c :: rest)).bind mkPosI32

/-- Rust `bool::from_str`: exactly `"true"` or `"false"`. -/
def parseBool (l : List Char) : Option Bool :=
  if l = chs "true" then some true
  else if l = chs "false" then some false
  else none

/-- Decimal digit expansion of a natural number, most significant first
(the rendering `{value}` performs for an unsigned integer); `fuel`-guarded
structural recursion, adequate whenever `n ≤ fuel`. -/
def fmtNatAux : Nat → Nat → List Char
| 0, _ => []
| fuel + 1, n =>
  if n = 0 then [] else fmtNatAux fuel (n / 10) ++ [Nat.digitChar (n % 10)]

/-- Rust `Display` for an unsigned decimal: `"0"` for zero, otherwise the
digit expansion. -/
def fmtNat (n : Nat) : List Char :=
  if n = 0 then ['0'] else fmtNatAux (n + 1) n

/-- Rust `Display` for `i32`: a `-` sign for negatives, then the decimal
magnitude. -/
def fmtI32 (x : I32) : List Char :=
  if x.val < 0 then '-' :: fmtNat x.val.natAbs else fmtNat x.val.natAbs

/-- Rust `Display` for `bool`: `"true"` / `"false"`. -/
def fmtBool : Bool → List Char
| true => chs "true"
| false => chs "false"

/-- `impl Display for Value` (`src/lib.rs:23-32`): a one-character type
tag, a `:`, then the payload's textual form. `fF` is `f32`'s `Display`. -/
def Value.encode (fF : F → List Char) : Value F → List Char
| .Str s => chs "s:" ++ s
| .Int n => chs "i:" ++ fmtI32 n
| .Float x => chs "f:" ++ fF x
| .Bool b => chs "b:" ++ fmtBool b

/-- `impl TryFrom<&str> for Value` (`src/lib.rs:41-69`): first char is the
tag (`ValueIsEmpty` if absent); the second char is demanded by
`assert_eq!(':', …)` — absent second char is the recoverable
`InvalidValue` (the `ok_or` fires before the assertion), a present
non-`:` second char is a panic (`fatal`); then dispatch on the tag, the
remainder of the string being the payload. `pF` is `f32::from_str`. -/
def Value.tryFrom (pF : List Char → Option F) : List Char → DecodeResult F
| [] => .err .ValueIsEmpty
| [_] => .err .InvalidValue
| t :: c :: rest =>
  if c = ':' then
    if t = 's' then .ok (.Str rest)
    else if t = 'i' then
      match parseI32 rest with
      | some n => .ok (.Int n)
      | none => .err .InvalidValue
    else if t = 'f' then
      match pF rest with
      | some x => .ok (.Float x)
      | none => .err .InvalidValue
    else if t = 'b' then
      match parseBool rest with
      | some b => .ok (.Bool b)
      | none => .err .InvalidValue
    else .err .InvalidType
  else .fatal

/-- Whether a `Value` is the `Str` variant. -/
def isStrValue : Value F → Bool
| .Str _ => true
| _ => false

/-- `HashMap::insert`: replace the entry of an existing key, else append. -/
def alInsert [DecidableEq κ] (k : κ) (v : α) : List (κ × α) → List (κ × α)
| [] => [(k, v)]
| (k', v') :: rest =>
  if k' = k then (k, v) :: rest else (k', v') :: alInsert k v rest

/-- `HashMap::get`: the value stored under a key. -/
def alLookup [DecidableEq κ] (k : κ) : List (κ × α) → Option α
| [] => none
| (k', v') :: rest => if k' = k then some v' else alLookup k rest

/-- `HashMap::remove` (the map part): drop the entry of a key. `HashMap`
keys are unique, so filtering every occurrence agrees with it. -/
def alRemove [DecidableEq κ] (k : κ) (l : List (κ × α)) : List (κ × α) :=
  l.filter (fun p => p.1 ≠ k)

/-- `struct Object` from `src/lib.rs`. -/
structure Object (F : Type) where
  name : List Char
  values : List (List Char × Value F)
deriving DecidableEq

/-- `Object::new`: named, with no fields. -/
def Object.new (name : List Char) : Object F := ⟨name, []⟩

/-- `Object::get`. -/
def Object.get (o : Object F) (name : List Char) : Option (Value F) :=
  alLookup name o.values

/-- `Object::add`. -/
def Object.add (o : Object F) (name : List Char) (v : Value F) : Object F :=
  { o with values := alInsert name v o.values }

/-- `Object::delete`: the removed value (if any) and the updated object. -/
def Object.delete (o : Object F) (name : List Char) :
    Option (Value F) × Object F :=
  (alLookup name o.values, { o with values := alRemove name o.values })

/-- `impl Display for Object` (`src/lib.rs:97-105`): a header line
`object=<name>`, then per field `  <name>=<encoded value>`, each line
newline-terminated. Fields iterate in list order (one admissible
`HashMap` iteration order). -/
def Object.render (fF : F → List Char) (o : Object F) : List Char :=
  chs "object=" ++ o.name ++ ['\n'] ++
    o.values.flatMap
      (fun p => chs "  " ++ p.1 ++ ['='] ++ Value.encode fF p.2 ++ ['\n'])

/-- `struct Database` from `src/lib.rs` (the `path` field only names the
backing file; file contents are passed explicitly to `load`). -/
structure Database (F : Type) where
  objects : List (List Char × Object F)
  path : List Char
deriving DecidableEq

/-- `Database::new`. -/
def Database.new (path : List Char) : Database F := ⟨[], path⟩

/-- `Database::add_object`: insert under `object.name`, overwriting. -/
def Database.add_object (db : Database F) (o : Object F) : Database F :=
  { db with objects := alInsert o.name o db.objects }

/-- `Database::get_object`. -/
def Database.get_object (db : Database F) (name : List Char) :
    Option (Object F) :=
  alLookup name db.objects

/-- `impl Display for Database` (`src/lib.rs:170-178`): header `sosdb`,
then each object's render followed by a blank separator line (the extra
`writeln!`). This is exactly the text `save()` writes to the file. -/
def Database.render (fF : F → List Char) (db : Database F) : List Char :=
  chs "sosdb" ++ ['\n'] ++
    db.objects.flatMap (fun p => Object.render fF p.2 ++ ['\n'])

/-- `str::split_once` with a one-character pattern: the pieces before and
after the first occurrence of `sep`, or `none` when absent. -/
def splitOnce (sep : Char) : List Char → Option (List Char × List Char)
| [] => none
| c :: rest =>
  if c = sep then some ([], rest)
  else
    match splitOnce sep rest with
    | none => none
    | some (a, b) => some (c :: a, b)

/-- Strip one trailing carriage return (applied by `str::lines` to each
newline-terminated line). -/
def stripCr (l : List Char) : List Char :=
  if l.getLast? = some '\r' then l.dropLast else l

/-- Worker for `str::lines`: `cur` is the line accumulated so far. At a
newline the line is emitted (with `\r\n` normalised); at end of input a
nonempty unterminated final line is emitted as-is, while a trailing line
terminator yields nothing further. -/
def rustLinesAux (cur : List Char) : List Char → List (List Char)
| [] => if cur.isEmpty then [] else [cur]
| c :: rest =>
  if c = '\n' then stripCr cur :: rustLinesAux [] rest
  else rustLinesAux (cur ++ [c]) rest

/-- `str::lines`. -/
def rustLines (s : List Char) : List (List Char) := rustLinesAux [] s

/-- Helper for the byte slice `&line[2..]`: one more byte must be
consumed and land on a character boundary. -/
def dropOneByte : List Char → Option (List Char)
| [] => none
| c2 :: rest2 => if c2.utf8Size = 1 then some rest2 else none

/-- The byte slice `&line[2..]` of `Database::load`: `some` of the
remainder when the line is at least two bytes long and byte 2 is a
character boundary, `none` (a panic) otherwise. -/
def dropTwoBytes : List Char → Option (List Char)
| [] => none
| c :: rest =>
  if c.utf8Size = 1 then dropOneByte rest
  else if c.utf8Size = 2 then some rest
  else none

/-- Loader position: between blocks, or inside the block of a partially
reconstructed object (the two nested `while let` loops of
`Database::load` share one line iterator, so they form a state machine
over the line sequence). -/
inductive Mode (F : Type) where
| top : Mode F
| inObj : Object F → Mode F
deriving DecidableEq

/-- Loader state: still running (with the current `objects` map), returned
`Err(DatabaseLoadError::ValueError e)`, or a process abort (a slice or
assertion panic). Each carries the objects map at that point. -/
inductive LState (F : Type) where
| run : Mode F → List (List Char × Object F) → LState F
| err : ValueParseError → List (List Char × Object F) → LState F
| fatal : List (List Char × Object F) → LState F
deriving DecidableEq

/-- The objects map held by a loader state. -/
def LState.objectsOf : LState F → List (List Char × Object F)
| .run _ m => m
| .err _ m => m
| .fatal m => m

/-- Whether a loader state is a successful final state. -/
def LState.isOk : LState F → Bool
| .run .top _ => true
| _ => false

/-- One line of `Database::load` (`src/lib.rs:144-164`). At top level, a
line splitting at a space starts a block named by the part after the
space; otherwise the line is skipped. Inside a block, `end` completes the
object (inserted via `add_object`); any other line is sliced `[2..]`
(panic if too short / not a boundary) and split at `=`: no `=` skips the
line, otherwise the value is decoded — `Err` aborts the load with a
`ValueError`, a decode panic aborts the process. Error and panic states
absorb. -/
def step (pF : List Char → Option F) : LState F → List Char → LState F
| .run .top m, l =>
  match splitOnce ' ' l with
  | none => .run .top m
  | some (_, name) => .run (.inObj (Object.new name)) m
| .run (.inObj o) m, l =>
  if l = chs "end" then .run .top (alInsert o.name o m)
  else
    match dropTwoBytes l with
    | none => .fatal m
    | some s =>
      match splitOnce '=' s with
      | none => .run (.inObj o) m
      | some (n, v) =>
        match Value.tryFrom pF v with
        | .ok val => .run (.inObj (Object.add o n val)) m
        | .err e => .err e m
        | .fatal => .fatal m
| .err e m, _ => .err e m
| .fatal m, _ => .fatal m

/-- End of input: a block never terminated by `end` still gets its object
inserted (the inner `while let` simply runs out of lines, and
`add_object` follows it). -/
def finishLoad : LState F → LState F
| .run (.inObj o) m => .run .top (alInsert o.name o m)
| s => s

/-- `Database::load` after line-splitting: fold the per-line step over the
lines, starting from the given objects map. -/
def loadLines (pF : List Char → Option F)
    (ls : List (List Char)) (m : List (List Char × Object F)) : LState F :=
  finishLoad (ls.foldl (step pF) (.run .top m))

/-- `Database::load` (`src/lib.rs:139-167`) given the backing file's text:
split into lines, discard the first line unconditionally, then run the
parser over the rest against the database's existing objects map. (The
file read itself — the `IO` error arm — is outside the embedding.) -/
def load (pF : List Char → Option F) (db : Database F)
    (contents : List Char) : LState F :=
  loadLines pF ((rustLines contents).drop 1) db.objects

/-- Trivial float payload used to instantiate the parametric development
on concrete inputs (no claim exercises a concrete float). -/
def fmt0 : Unit → List Char := fun _ => ['0']

/-- Parser matching `fmt0`. -/
def parse0 : List Char → Option Unit :=
  fun l => if l = ['0'] then some () else none

/-- First concrete object named `a` (witness input). -/
def oA : Object Unit := ⟨chs "a", [(chs "x", Value.Int ⟨1, by decide⟩)]⟩

/-- Second concrete object named `a` (witness input). -/
def oB : Object Unit := ⟨chs "a", [(chs "y", Value.Bool true)]⟩

/-- Concrete empty database (witness input). -/
def dbW : Database Unit := Database.new (chs "w")

/-- Prefix lines for the C5 witness: one completed block `p`, then the
header of a second block `q`. -/
def preW : List (List Char) :=
  [chs "object p", chs "  a=i:1", chs "end", chs "object q"]

/-- Objects map accumulated by `preW`: just the completed object `p`. -/
def mW1 : List (List Char × Object Unit) :=
  [(chs "p", ⟨chs "p", [(chs "a", .Int ⟨1, by decide⟩)]⟩)]

/-- The sequence of keys the loader inserts into the objects map while
processing the given lines from the given mode (mirrors `step` /
`finishLoad`; the traversal never consults the map, so these keys are a
function of the lines alone). Used to state which names a parse
produces. -/
def insertKeysAux (pF : List Char → Option F) :
    Mode F → List (List Char) → List (List Char)
| .top, [] => []
| .inObj o, [] => [o.name]
| .top, l :: rest =>
  match splitOnce ' ' l with
  | none => insertKeysAux pF .top rest
  | some (_, name) => insertKeysAux pF (.inObj (Object.new name)) rest
| .inObj o, l :: rest =>
  if l = chs "end" then o.name :: insertKeysAux pF .top rest
  else
    match dropTwoBytes l with
    | none => []
    | some s =>
      match splitOnce '=' s with
      | none => insertKeysAux pF (.inObj o) rest
      | some (n, v) =>
        match Value.tryFrom pF v with
        | .ok val => insertKeysAux pF (.inObj (o.add n val)) rest
        | .err _ => []
        | .fatal => []

/-- Pointwise relation between two map states evolving in lockstep from
initial maps `ma` and `mb`: each key is either untouched on both sides or
has been overwritten identically on both sides. -/
def MapRel (ma mb na nb : List (List Char × Object F)) : Prop :=
  ∀ k, (alLookup k na = alLookup k ma ∧ alLookup k nb = alLookup k mb) ∨
    alLookup k na = alLookup k nb

/-- Lockstep relation between two loader runs that differ only in their
initial maps: same mode / same outcome, related maps. -/
inductive StRel (ma mb : List (List Char × Object F)) :
    LState F → LState F → Prop
| run : ∀ mo na nb, MapRel ma mb na nb → StRel ma mb (.run mo na) (.run mo nb)
| err : ∀ e na nb, MapRel ma mb na nb → StRel ma mb (.err e na) (.err e nb)
| fatal : ∀ na nb, MapRel ma mb na nb → StRel ma mb (.fatal na) (.fatal nb)

/-- Lines for the C6 witness: one completed block `p`. -/
def lsW : List (List Char) := [chs "object p", chs "  a=i:1", chs "end"]

/-- Pre-existing map for the C6 witness: an object under the unrelated
name `z`. -/
def mzW : List (List Char × Object Unit) := [(chs "z", Object.new (chs "z"))]

/-- Map after the first load of `lsW` over `mzW`. -/
def m1W : List (List Char × Object Unit) :=
  [(chs "z", Object.new (chs "z")),
    (chs "p", ⟨chs "p", [(chs "a", .Int ⟨1, by decide⟩)]⟩)]

/-- The `player` object of the round-trip scenario: fields
`hp = Integer(100)` and `alive = Boolean(true)`. -/
def playerObj : Object Unit :=
  ((Object.new (chs "player")).add (chs "hp") (.Int ⟨100, by decide⟩)).add
    (chs "alive") (.Bool true)

/-- Database holding exactly the `player` object. -/
def playerDb : Database Unit :=
  (Database.new (chs "save.sosdb")).add_object playerObj

/-- Result of loading, into a fresh database, exactly the text the writer
renders for `playerDb` (what `save()` puts in the file). -/
def playerRoundTrip : LState Unit :=
  load parse0 (Database.new (chs "save.sosdb"))
    (Database.render fmt0 playerDb)

theorem alLookup_alInsert_self [DecidableEq κ] (k : κ) (v : α)
    (l : List (κ × α)) : alLookup k (alInsert k v l) = some v := by
  induction l with
  | nil => simp [alInsert, alLookup]
  | cons p rest ih =>
    obtain ⟨k', v'⟩ := p
    by_cases h : k' = k
    · simp [alInsert, alLookup, h]
    · simp [alInsert, alLookup, h, ih]

theorem alLookup_alInsert_ne [DecidableEq κ] {k₂ k : κ} (v : α)
    (l : List (κ × α)) (h : k₂ ≠ k) :
    alLookup k₂ (alInsert k v l) = alLookup k₂ l := by
  induction l with
  | nil => simp [alInsert, alLookup, Ne.symm h]
  | cons p rest ih =>
    obtain ⟨k', v'⟩ := p
    by_cases hk : k' = k
    · subst hk
      simp [alInsert, alLookup, Ne.symm h]
    · simp only [alInsert, if_neg hk]
      by_cases hk2 : k' = k₂
      · simp [alLookup, hk2]
      · simp [alLookup, hk2, ih]

theorem alLookup_alRemove_self [DecidableEq κ] (k : κ) (l : List (κ × α)) :
    alLookup k (alRemove k l) = none := by
  induction l with
  | nil => simp [alRemove, alLookup]
  | cons p rest ih =>
    obtain ⟨k', v'⟩ := p
    by_cases h : k' = k
    · simpa [alRemove, List.filter_cons, h] using ih
    · simpa [alRemove, List.filter_cons, h, alLookup] using ih

/-- C8: for every `Object`, field name and value, `Object::add` of that
field followed by `Object::get` of the same field name returns the
just-added value, and `Object::delete` of a field followed by
`Object::get` of that field returns `None`. -/
theorem c8_add_get_delete_get {F : Type} (o : Object F) (fname : List Char)
    (v : Value F) :
    Object.get (Object.add o fname v) fname = some v ∧
    Object.get (Object.delete o fname).2 fname = none := by
  constructor
  · simp [Object.get, Object.add, alLookup_alInsert_self]
  · simp [Object.get, Object.delete, alLookup_alRemove_self]

/-- C7: calling `Database::add_object` twice with objects of the same name
leaves only the second object under that name (`get_object` returns it —
the first object's contents are overwritten, not merged), and every other
name is untouched. -/
theorem c7_add_object_overwrite {F : Type} (db : Database F)
    (o1 o2 : Object F) (h : o1.name = o2.name) :
    ((db.add_object o1).add_object o2).get_object o2.name = some o2 ∧
    ∀ k, k ≠ o2.name →
      ((db.add_object o1).add_object o2).get_object k = db.get_object k := by
  constructor
  · simp [Database.get_object, Database.add_object, alLookup_alInsert_self]
  · intro k hk
    have hk1 : k ≠ o1.name := by rw [h]; exact hk
    simp [Database.get_object, Database.add_object,
      alLookup_alInsert_ne _ _ hk, alLookup_alInsert_ne _ _ hk1]

/-- C7 witness: two concrete objects named `a`; after both insertions the
lookup under `a` yields the second object and an unrelated name `z` is
unchanged. -/
theorem c7_witness :
    oA.name = oB.name ∧
    ((dbW.add_object oA).add_object oB).get_object oB.name = some oB ∧
    ((dbW.add_object oA).add_object oB).get_object (chs "z")
      = dbW.get_object (chs "z") := by
  refine ⟨by decide, ?_, ?_⟩
  · exact (c7_add_object_overwrite dbW oA oB (by decide)).1
  · exact (c7_add_object_overwrite dbW oA oB (by decide)).2 (chs "z")
      (by decide)

/-- C9: for every input whose second character is `:` and whose first
character is none of `s`, `i`, `f`, `b`, decode fails with
`InvalidType`. -/
theorem c9_unknown_tag_invalid_type {F : Type} (pF : List Char → Option F)
    (t : Char) (rest : List Char) (hs : t ≠ 's') (hi : t ≠ 'i')
    (hf : t ≠ 'f') (hb : t ≠ 'b') :
    Value.tryFrom pF (t :: ':' :: rest) = .err .InvalidType := by
  simp [Value.tryFrom, hs, hi, hf, hb]

/-- C9 witness: `decode("x:5")` fails with `InvalidType`. -/
theorem c9_witness :
    ('x' ≠ 's' ∧ 'x' ≠ 'i' ∧ 'x' ≠ 'f' ∧ 'x' ≠ 'b') ∧
    Value.tryFrom (F := Unit) parse0 ('x' :: ':' :: chs "5")
      = .err .InvalidType :=
  ⟨by decide, c9_unknown_tag_invalid_type parse0 'x' (chs "5")
    (by decide) (by decide) (by decide) (by decide)⟩

/-- C10: the string round trip is unrestricted at the codec level — for
every payload `s` (empty, containing newlines, `:` or control characters
alike), decoding the encoding of `Str s` yields exactly `Str s`: encoding
prepends `s:` and decoding takes the whole remainder after the first `:`
verbatim. -/
theorem c10_str_roundtrip_unrestricted {F : Type}
    (pF : List Char → Option F) (fF : F → List Char) (s : List Char) :
    Value.tryFrom pF (Value.encode fF (.Str s)) = .ok (.Str s) := by
  have h : Value.encode fF (.Str (F := F) s) = 's' :: ':' :: s := rfl
  rw [h]
  simp [Value.tryFrom]

/-- C3 counterexample: on the one-character input `"i"` decode returns the
recoverable `InvalidValue` error — the `ok_or` on the missing second
character fires before the assertion — rather than aborting the process,
contrary to the claim that every one-character input aborts. -/
theorem c3_one_char_cex :
    Value.tryFrom (F := Unit) parse0 ['i'] = .err .InvalidValue ∧
    Value.tryFrom (F := Unit) parse0 ['i'] ≠ .fatal := by
  constructor
  · decide
  · decide

/-- C3 amended: when the second character is present but is not `:`, the
`assert_eq!` makes decode abort the process unconditionally; when the
second character is missing (every one-character input), decode instead
returns the recoverable `InvalidValue` error. -/
theorem c3_separator_amended {F : Type} (pF : List Char → Option F) :
    (∀ t c rest, c ≠ ':' → Value.tryFrom pF (t :: c :: rest) = .fatal) ∧
    (∀ t, Value.tryFrom pF [t] = .err .InvalidValue) := by
  constructor
  · intro t c rest hc
    simp [Value.tryFrom, hc]
  · intro t
    simp [Value.tryFrom]

theorem digitVal_digitChar (d : Nat) (h : d < 10) :
    digitVal? (Nat.digitChar d) = some d := by
  interval_cases d <;> decide

theorem parseNatAcc_append (acc : Nat) (l1 l2 : List Char) :
    parseNatAcc acc (l1 ++ l2)
      = (parseNatAcc acc l1).bind (fun a => parseNatAcc a l2) := by
  induction l1 generalizing acc with
  | nil => simp [parseNatAcc]
  | cons c rest ih =>
    cases h : digitVal? c <;> simp [parseNatAcc, h, ih]

theorem parseNatAcc_fmtNatAux (fuel : Nat) :
    ∀ n acc, n ≤ fuel →
      parseNatAcc acc (fmtNatAux fuel n)
        = some (acc * 10 ^ (fmtNatAux fuel n).length + n) := by
  induction fuel with
  | zero =>
    intro n acc h
    have hn : n = 0 := Nat.le_zero.mp h
    subst hn
    simp [fmtNatAux, parseNatAcc]
  | succ fuel ih =>
    intro n acc h
    by_cases hn : n = 0
    · subst hn
      simp [fmtNatAux, parseNatAcc]
    · have hdiv : n / 10 ≤ fuel := by
        have := Nat.div_lt_self (Nat.pos_of_ne_zero hn)
          (by norm_num : 1 < 10)
        omega
      have hmod : n / 10 * 10 + n % 10 = n := by omega
      rw [fmtNatAux, if_neg hn, parseNatAcc_append, ih (n / 10) acc hdiv]
      simp only [Option.some_bind, parseNatAcc,
        digitVal_digitChar (n % 10) (Nat.mod_lt _ (by norm_num)),
        List.length_append, List.length_cons, List.length_nil, Nat.zero_add]
      refine congrArg some ?_
      rw [pow_succ, Nat.add_mul, Nat.add_assoc, hmod, Nat.mul_assoc]

theorem fmtNat_ne_nil (n : Nat) : fmtNat n ≠ [] := by
  by_cases hn : n = 0
  · subst hn; decide
  · rw [fmtNat, if_neg hn]
    cases h : fmtNatAux (n + 1) n with
    | nil =>
      rw [fmtNatAux, if_neg hn] at h
      simpa using congrArg List.length h
    | cons c cs => simp

theorem fmtNatAux_mem (fuel : Nat) :
    ∀ n c, c ∈ fmtNatAux fuel n → ∃ d, d < 10 ∧ c = Nat.digitChar d := by
  induction fuel with
  | zero =>
    intro n c hc
    simp [fmtNatAux] at hc
  | succ fuel ih =>
    intro n c hc
    by_cases hn : n = 0
    · subst hn; simp [fmtNatAux] at hc
    · rw [fmtNatAux, if_neg hn] at hc
      rcases List.mem_append.mp hc with h | h
      · exact ih _ _ h
      · refine ⟨n % 10, Nat.mod_lt _ (by norm_num), ?_⟩
        simpa using h

theorem fmtNat_mem (n : Nat) :
    ∀ c ∈ fmtNat n, ∃ d, d < 10 ∧ c = Nat.digitChar d := by
  intro c hc
  by_cases hn : n = 0
  · subst hn
    refine ⟨0, by norm_num, ?_⟩
    simpa [fmtNat] using hc
  · rw [fmtNat, if_neg hn] at hc
    exact fmtNatAux_mem _ _ _ hc

theorem parseNatAcc_fmtNat (n : Nat) : parseNatAcc 0 (fmtNat n) = some n := by
  by_cases hn : n = 0
  · subst hn; decide
  · rw [fmtNat, if_neg hn]
    simpa using parseNatAcc_fmtNatAux (n + 1) n 0 (Nat.le_succ n)

theorem mkPosI32_of_lt (n : Nat) (h : (n : ℤ) < 2 ^ 31) (x : I32)
    (hx : x.val = (n : ℤ)) : mkPosI32 n = some x := by
  unfold mkPosI32
  rw [dif_pos h]
  exact congrArg some (Subtype.ext hx.symm)

theorem mkNegI32_of_le (n : Nat) (h : (n : ℤ) ≤ 2 ^ 31) (x : I32)
    (hx : x.val = -(n : ℤ)) : mkNegI32 n = some x := by
  unfold mkNegI32
  rw [dif_pos h]
  exact congrArg some (Subtype.ext hx.symm)

/-- Rust `i32` round trip: `from_str` recovers every value `Display`
prints. -/
theorem parseI32_fmtI32 (x : I32) : parseI32 (fmtI32 x) = some x := by
  obtain ⟨v, hlo, hhi⟩ := x
  by_cases hneg : v < 0
  · have hfmt : fmtI32 ⟨v, hlo, hhi⟩ = '-' :: fmtNat v.natAbs := by
      rw [fmtI32]; simp [hneg]
    rw [hfmt, parseI32]
    have hne : (fmtNat v.natAbs).isEmpty = false := by
      cases h : fmtNat v.natAbs with
      | nil => exact absurd h (fmtNat_ne_nil _)
      | cons c cs => simp
    rw [if_neg (by decide : ¬('-' : Char) = '+'), if_pos rfl, hne]
    simp only [Bool.false_eq_true, if_false, parseNatAcc_fmtNat,
      Option.some_bind]
    have habs : (v.natAbs : ℤ) = -v :=
      Int.ofNat_natAbs_of_nonpos (le_of_lt hneg)
    exact mkNegI32_of_le _ (by rw [habs]; omega) _ (by rw [habs, neg_neg])
  · push_neg at hneg
    have habs : (v.natAbs : ℤ) = v := Int.natAbs_of_nonneg hneg
    have hfmt : fmtI32 ⟨v, hlo, hhi⟩ = fmtNat v.natAbs := by
      rw [fmtI32]; simp [not_lt.mpr hneg]
    cases h : fmtNat v.natAbs with
    | nil => exact absurd h (fmtNat_ne_nil _)
    | cons c cs =>
      obtain ⟨d, hd, hcd⟩ := fmtNat_mem v.natAbs c (h ▸ List.mem_cons_self c cs)
      have hplus : c ≠ '+' := by
        subst hcd; interval_cases d <;> decide
      have hminus : c ≠ '-' := by
        subst hcd; interval_cases d <;> decide
      rw [hfmt, h, parseI32, if_neg hplus, if_neg hminus, ← h,
        parseNatAcc_fmtNat, Option.some_bind]
      exact mkPosI32_of_lt _ (by rw [habs]; exact hhi) _ habs.symm

/-- C2: for every `Value` of kind Integer, Float or Boolean, decoding the
encoded form succeeds and yields the value back. The float leg is exactly
the Rust standard library's documented guarantee that `f32`'s `Display`
output parses back to the same value, taken as the hypothesis `hF` on the
parametric float implementation; the integer and boolean legs are proved
outright. -/
theorem c2_value_roundtrip {F : Type} (fF : F → List Char)
    (pF : List Char → Option F) (hF : ∀ x, pF (fF x) = some x)
    (v : Value F) (hv : isStrValue v = false) :
    Value.tryFrom pF (Value.encode fF v) = .ok v := by
  cases v with
  | Str s => simp [isStrValue] at hv
  | Int x =>
    have h : Value.encode fF (.Int (F := F) x) = 'i' :: ':' :: fmtI32 x := rfl
    rw [h]
    simp [Value.tryFrom, parseI32_fmtI32]
  | Float x =>
    have h : Value.encode fF (.Float x) = 'f' :: ':' :: fF x := rfl
    rw [h]
    simp [Value.tryFrom, hF]
  | Bool b =>
    cases b
    · have h : Value.encode fF (.Bool (F := F) false)
          = 'b' :: ':' :: chs "false" := rfl
      have hp : parseBool (chs "false") = some false := rfl
      rw [h]
      simp [Value.tryFrom, hp]
    · have h : Value.encode fF (.Bool (F := F) true)
          = 'b' :: ':' :: chs "true" := rfl
      have hp : parseBool (chs "true") = some true := rfl
      rw [h]
      simp [Value.tryFrom, hp]

/-- C2 witness: concrete Integer and Boolean round trips, through the
trivial float implementation (which satisfies the round-trip
hypothesis). -/
theorem c2_witness :
    isStrValue (Value.Int (F := Unit) ⟨100, by decide⟩) = false ∧
    Value.tryFrom parse0 (Value.encode fmt0 (Value.Int ⟨100, by decide⟩))
      = .ok (.Int ⟨100, by decide⟩) ∧
    Value.tryFrom parse0 (Value.encode fmt0 (Value.Bool true))
      = .ok (.Bool true) :=
  ⟨rfl, c2_value_roundtrip fmt0 parse0 (fun _ => rfl) _ rfl,
    c2_value_roundtrip fmt0 parse0 (fun _ => rfl) _ rfl⟩

theorem foldl_step_err {F : Type} (pF : List Char → Option F)
    (e : ValueParseError) (m : List (List Char × Object F))
    (ls : List (List Char)) :
    ls.foldl (step pF) (.err e m) = (.err e m : LState F) := by
  induction ls with
  | nil => rfl
  | cons l rest ih => simpa [step] using ih

theorem foldl_step_fatal {F : Type} (pF : List Char → Option F)
    (m : List (List Char × Object F)) (ls : List (List Char)) :
    ls.foldl (step pF) (.fatal m) = (.fatal m : LState F) := by
  induction ls with
  | nil => rfl
  | cons l rest ih => simpa [step] using ih

/-- C5: when a value-decode failure hits while a field is being
reconstructed (the loader is inside a block, having accumulated exactly
the objects of the blocks completed earlier, and the next line's step
fails with a decode error), the whole load returns that error
immediately: its objects map is exactly the map accumulated before the
failing line, and nothing from the failing line or any later line is
added. -/
theorem c5_decode_failure_aborts {F : Type} (pF : List Char → Option F)
    (pre : List (List Char)) (l : List Char) (post : List (List Char))
    (m m₁ : List (List Char × Object F)) (o : Object F)
    (e : ValueParseError)
    (h1 : pre.foldl (step pF) (.run .top m) = .run (.inObj o) m₁)
    (h2 : step pF (.run (.inObj o) m₁) l = .err e m₁) :
    loadLines pF (pre ++ l :: post) m = .err e m₁ := by
  rw [loadLines, List.foldl_append, h1, List.foldl_cons, h2,
    foldl_step_err]
  rfl

/-- C5 witness: with block `p` completed and block `q` open, the field
line `  b=i:zz` fails to decode; the load returns `InvalidValue` with
only `p` in the map, and the trailing line is never processed. -/
theorem c5_witness :
    preW.foldl (step parse0) (.run .top [])
      = .run (.inObj (Object.new (chs "q"))) mW1 ∧
    step parse0 (.run (.inObj (Object.new (chs "q"))) mW1) (chs "  b=i:zz")
      = .err .InvalidValue mW1 ∧
    loadLines parse0 (preW ++ chs "  b=i:zz" :: [chs "object r"]) []
      = .err .InvalidValue mW1 :=
  ⟨by decide, by decide,
    c5_decode_failure_aborts parse0 preW (chs "  b=i:zz") [chs "object r"]
      [] mW1 (Object.new (chs "q")) .InvalidValue (by decide) (by decide)⟩

/-- C4 counterexample: an empty line inside an object block contains no
`=` and is not `end`, yet the loader panics on the byte slice `&line[2..]`
(byte index 2 out of bounds) instead of silently skipping it — the load
of a block containing an empty line ends in the abort state, not in a
completed parse. -/
theorem c4_short_line_cex :
    loadLines (F := Unit) parse0 [chs "object p", []] [] = .fatal [] := by
  decide

theorem splitOnce_eq_none (sep : Char) (l : List Char) (h : sep ∉ l) :
    splitOnce sep l = none := by
  induction l with
  | nil => rfl
  | cons c rest ih =>
    rw [splitOnce,
      if_neg (fun hc => h (by rw [← hc]; exact List.mem_cons_self c rest)),
      ih (fun hr => h (List.mem_cons_of_mem c hr))]

theorem dropOneByte_subset (l s : List Char) (h : dropOneByte l = some s) :
    ∀ c ∈ s, c ∈ l := by
  match l with
  | [] => cases h
  | c2 :: rest2 =>
    rw [dropOneByte] at h
    by_cases h2 : c2.utf8Size = 1
    · rw [if_pos h2] at h
      cases h
      intro c hc
      exact List.mem_cons_of_mem _ hc
    · rw [if_neg h2] at h
      cases h

theorem dropTwoBytes_subset (l s : List Char) (h : dropTwoBytes l = some s) :
    ∀ c ∈ s, c ∈ l := by
  match l with
  | [] => cases h
  | c1 :: rest =>
    rw [dropTwoBytes] at h
    by_cases h1 : c1.utf8Size = 1
    · rw [if_pos h1] at h
      intro c hc
      exact List.mem_cons_of_mem _ (dropOneByte_subset rest s h c hc)
    · by_cases h2 : c1.utf8Size = 2
      · rw [if_neg h1, if_pos h2] at h
        cases h
        intro c hc
        exact List.mem_cons_of_mem _ hc
      · rw [if_neg h1, if_neg h2] at h
        cases h

/-- C4 amended: a line inside an object block that is not `end`, is long
enough for the two-byte slice `&line[2..]` to succeed (at least two bytes
with byte 2 on a character boundary — in particular any ASCII line of
length at least two), and contains no `=` character, records no field and
the loader continues in the same block without error; lines on which the
slice fails (such as empty or one-character lines) instead abort the
process. -/
theorem c4_no_equals_line_skipped {F : Type} (pF : List Char → Option F)
    (o : Object F) (m : List (List Char × Object F)) (l s : List Char)
    (hend : l ≠ chs "end") (hdrop : dropTwoBytes l = some s)
    (hmem : ('=' : Char) ∉ l) :
    step pF (.run (.inObj o) m) l = .run (.inObj o) m := by
  have hs : ('=' : Char) ∉ s := fun hc => hmem (dropTwoBytes_subset l s hdrop '=' hc)
  simp [step, hend, hdrop, splitOnce_eq_none _ _ hs]

/-- C4 witness: the ASCII line `  nofield` (no `=`) inside a block is
skipped with no field recorded and no error. -/
theorem c4_witness :
    (chs "  nofield" ≠ chs "end") ∧
    dropTwoBytes (chs "  nofield") = some (chs "nofield") ∧
    (('=' : Char) ∉ chs "  nofield") ∧
    step (F := Unit) parse0 (.run (.inObj (Object.new (chs "p"))) [])
        (chs "  nofield")
      = .run (.inObj (Object.new (chs "p"))) [] :=
  ⟨by decide, by decide, by decide,
    c4_no_equals_line_skipped parse0 (Object.new (chs "p")) []
      (chs "  nofield") (chs "nofield") (by decide) (by decide) (by decide)⟩

theorem step_top_skip {F : Type} (pF : List Char → Option F) {l : List Char}
    (m : List (List Char × Object F)) (h : splitOnce ' ' l = none) :
    step pF (.run .top m) l = .run .top m := by
  simp [step, h]

theorem step_top_open {F : Type} (pF : List Char → Option F) {l a name : _}
    (m : List (List Char × Object F))
    (h : splitOnce ' ' l = some (a, name)) :
    step pF (.run .top m) l = .run (.inObj (Object.new name)) m := by
  simp [step, h]

theorem step_block_end {F : Type} (pF : List Char → Option F) (o : Object F)
    (m : List (List Char × Object F)) :
    step pF (.run (.inObj o) m) (chs "end")
      = .run .top (alInsert o.name o m) := by
  simp [step]

theorem step_slice_panic {F : Type} (pF : List Char → Option F)
    (o : Object F) (m : List (List Char × Object F)) {l : List Char}
    (hend : l ≠ chs "end") (h : dropTwoBytes l = none) :
    step pF (.run (.inObj o) m) l = .fatal m := by
  simp [step, hend, h]

theorem step_field_skip {F : Type} (pF : List Char → Option F)
    (o : Object F) (m : List (List Char × Object F)) {l s : List Char}
    (hend : l ≠ chs "end") (hdrop : dropTwoBytes l = some s)
    (hsp : splitOnce '=' s = none) :
    step pF (.run (.inObj o) m) l = .run (.inObj o) m := by
  simp [step, hend, hdrop, hsp]

theorem step_field_ok {F : Type} (pF : List Char → Option F)
    (o : Object F) (m : List (List Char × Object F)) {l s n v : _}
    {val : Value F} (hend : l ≠ chs "end") (hdrop : dropTwoBytes l = some s)
    (hsp : splitOnce '=' s = some (n, v))
    (htf : Value.tryFrom pF v = .ok val) :
    step pF (.run (.inObj o) m) l = .run (.inObj (o.add n val)) m := by
  simp [step, hend, hdrop, hsp, htf]

theorem step_field_err {F : Type} (pF : List Char → Option F)
    (o : Object F) (m : List (List Char × Object F)) {l s n v : _}
    {e : ValueParseError} (hend : l ≠ chs "end")
    (hdrop : dropTwoBytes l = some s) (hsp : splitOnce '=' s = some (n, v))
    (htf : Value.tryFrom pF v = .err e) :
    step pF (.run (.inObj o) m) l = .err e m := by
  simp [step, hend, hdrop, hsp, htf]

theorem step_field_fatal {F : Type} (pF : List Char → Option F)
    (o : Object F) (m : List (List Char × Object F)) {l s n v : _}
    (hend : l ≠ chs "end") (hdrop : dropTwoBytes l = some s)
    (hsp : splitOnce '=' s = some (n, v))
    (htf : Value.tryFrom pF v = .fatal) :
    step pF (.run (.inObj o) m) l = .fatal m := by
  simp [step, hend, hdrop, hsp, htf]

theorem lookup_loadLines_not_inserted {F : Type} (pF : List Char → Option F) :
    ∀ (ls : List (List Char)) (mo : Mode F)
      (m : List (List Char × Object F)) (k : List Char),
      k ∉ insertKeysAux pF mo ls →
      alLookup k (LState.objectsOf (finishLoad (ls.foldl (step pF) (.run mo m))))
        = alLookup k m := by
  intro ls
  induction ls with
  | nil =>
    intro mo m k hk
    cases mo with
    | top => rfl
    | inObj o =>
      have hne : k ≠ o.name := by simpa [insertKeysAux] using hk
      simp [finishLoad, LState.objectsOf, alLookup_alInsert_ne _ _ hne]
  | cons l rest ih =>
    intro mo m k hk
    cases mo with
    | top =>
      rw [List.foldl_cons]
      cases hsplit : splitOnce ' ' l with
      | none =>
        rw [step_top_skip pF m hsplit]
        exact ih .top m k (by simpa [insertKeysAux, hsplit] using hk)
      | some p =>
        obtain ⟨a, name⟩ := p
        rw [step_top_open pF m hsplit]
        exact ih _ m k (by simpa [insertKeysAux, hsplit] using hk)
    | inObj o =>
      rw [List.foldl_cons]
      by_cases hend : l = chs "end"
      · subst hend
        rw [step_block_end pF o m]
        simp only [insertKeysAux, eq_self_iff_true, if_true, List.mem_cons,
          not_or] at hk
        rw [ih .top _ k hk.2]
        exact alLookup_alInsert_ne _ _ hk.1
      · cases hdrop : dropTwoBytes l with
        | none =>
          rw [step_slice_panic pF o m hend hdrop, foldl_step_fatal]
          rfl
        | some s =>
          cases hsp : splitOnce '=' s with
          | none =>
            rw [step_field_skip pF o m hend hdrop hsp]
            exact ih _ m k
              (by simpa [insertKeysAux, hend, hdrop, hsp] using hk)
          | some nv =>
            obtain ⟨n, v⟩ := nv
            cases htf : Value.tryFrom pF v with
            | ok val =>
              rw [step_field_ok pF o m hend hdrop hsp htf]
              exact ih _ m k
                (by simpa [insertKeysAux, hend, hdrop, hsp, htf] using hk)
            | err e =>
              rw [step_field_err pF o m hend hdrop hsp htf, foldl_step_err]
              rfl
            | fatal =>
              rw [step_field_fatal pF o m hend hdrop hsp htf,
                foldl_step_fatal]
              rfl

theorem mapRel_insert {F : Type} {ma mb na nb : List (List Char × Object F)}
    (h : MapRel ma mb na nb) (k0 : List Char) (o : Object F) :
    MapRel ma mb (alInsert k0 o na) (alInsert k0 o nb) := by
  intro k
  by_cases hk : k = k0
  · subst hk
    right
    rw [alLookup_alInsert_self, alLookup_alInsert_self]
  · rcases h k with ⟨h1, h2⟩ | h3
    · left
      exact ⟨by rw [alLookup_alInsert_ne _ _ hk]; exact h1,
        by rw [alLookup_alInsert_ne _ _ hk]; exact h2⟩
    · right
      rw [alLookup_alInsert_ne _ _ hk, alLookup_alInsert_ne _ _ hk, h3]

theorem stRel_step {F : Type} (pF : List Char → Option F)
    {ma mb : List (List Char × Object F)} {s₁ s₂ : LState F}
    (h : StRel ma mb s₁ s₂) (l : List Char) :
    StRel ma mb (step pF s₁ l) (step pF s₂ l) := by
  cases h with
  | err e na nb hm => exact .err e na nb hm
  | fatal na nb hm => exact .fatal na nb hm
  | run mo na nb hm =>
    cases mo with
    | top =>
      cases hsplit : splitOnce ' ' l with
      | none =>
        rw [step_top_skip pF na hsplit, step_top_skip pF nb hsplit]
        exact .run _ _ _ hm
      | some p =>
        obtain ⟨a, name⟩ := p
        rw [step_top_open pF na hsplit, step_top_open pF nb hsplit]
        exact .run _ _ _ hm
    | inObj o =>
      by_cases hend : l = chs "end"
      · subst hend
        rw [step_block_end pF o na, step_block_end pF o nb]
        exact .run _ _ _ (mapRel_insert hm o.name o)
      · cases hdrop : dropTwoBytes l with
        | none =>
          rw [step_slice_panic pF o na hend hdrop,
            step_slice_panic pF o nb hend hdrop]
          exact .fatal _ _ hm
        | some s =>
          cases hsp : splitOnce '=' s with
          | none =>
            rw [step_field_skip pF o na hend hdrop hsp,
              step_field_skip pF o nb hend hdrop hsp]
            exact .run _ _ _ hm
          | some nv =>
            obtain ⟨n, v⟩ := nv
            cases htf : Value.tryFrom pF v with
            | ok val =>
              rw [step_field_ok pF o na hend hdrop hsp htf,
                step_field_ok pF o nb hend hdrop hsp htf]
              exact .run _ _ _ hm
            | err e =>
              rw [step_field_err pF o na hend hdrop hsp htf,
                step_field_err pF o nb hend hdrop hsp htf]
              exact .err _ _ _ hm
            | fatal =>
              rw [step_field_fatal pF o na hend hdrop hsp htf,
                step_field_fatal pF o nb hend hdrop hsp htf]
              exact .fatal _ _ hm

theorem stRel_foldl {F : Type} (pF : List Char → Option F)
    {ma mb : List (List Char × Object F)} {s₁ s₂ : LState F}
    (h : StRel ma mb s₁ s₂) (ls : List (List Char)) :
    StRel ma mb (ls.foldl (step pF) s₁) (ls.foldl (step pF) s₂) := by
  induction ls generalizing s₁ s₂ with
  | nil => exact h
  | cons l rest ih => exact ih (stRel_step pF h l)

theorem stRel_finishLoad {F : Type}
    {ma mb : List (List Char × Object F)} {s₁ s₂ : LState F}
    (h : StRel ma mb s₁ s₂) :
    StRel ma mb (finishLoad s₁) (finishLoad s₂) := by
  cases h with
  | err e na nb hm => exact .err e na nb hm
  | fatal na nb hm => exact .fatal na nb hm
  | run mo na nb hm =>
    cases mo with
    | top => exact .run _ _ _ hm
    | inObj o => exact .run _ _ _ (mapRel_insert hm o.name o)

/-- C6: `load` inserts parsed objects into the existing map without
clearing it — every key the parse does not produce keeps its prior value —
and on a fixed, successfully parsed input a second `load` also succeeds
and leaves the objects map (observed through lookups) exactly as it was
after the first `load` (each insertion overwrites with identical
content). -/
theorem c6_load_additive_idempotent {F : Type} (pF : List Char → Option F)
    (ls : List (List Char)) (m : List (List Char × Object F)) :
    (∀ k, k ∉ insertKeysAux pF .top ls →
      alLookup k (LState.objectsOf (loadLines pF ls m)) = alLookup k m) ∧
    (∀ m₁, loadLines pF ls m = .run .top m₁ →
      (loadLines pF ls m₁).isOk = true ∧
      ∀ k, alLookup k (LState.objectsOf (loadLines pF ls m₁))
        = alLookup k m₁) := by
  constructor
  · intro k hk
    exact lookup_loadLines_not_inserted pF ls .top m k hk
  · intro m₁ h
    have base : StRel m m₁ (.run .top m : LState F) (.run .top m₁) :=
      .run _ _ _ (fun k => Or.inl ⟨rfl, rfl⟩)
    have hrel := stRel_finishLoad (stRel_foldl pF base ls)
    rw [show finishLoad (ls.foldl (step pF) (.run .top m))
        = loadLines pF ls m from rfl,
      show finishLoad (ls.foldl (step pF) (.run .top m₁))
        = loadLines pF ls m₁ from rfl, h] at hrel
    cases hload : loadLines pF ls m₁ with
    | run mo nb =>
      rw [hload] at hrel
      cases hrel with
      | run mo na nb hm =>
        refine ⟨rfl, fun k => ?_⟩
        rcases hm k with ⟨h1, h2⟩ | h3
        · exact h2
        · exact h3.symm
    | err e nb =>
      rw [hload] at hrel
      cases hrel
    | fatal nb =>
      rw [hload] at hrel
      cases hrel

/-- C6 witness: loading `lsW` over `mzW` keeps the unrelated key `z`
unchanged, succeeds with map `m1W`, and a second load over `m1W` succeeds
and leaves the lookups unchanged. -/
theorem c6_witness :
    (chs "z" ∉ insertKeysAux (F := Unit) parse0 .top lsW) ∧
    alLookup (chs "z") (LState.objectsOf (loadLines parse0 lsW mzW))
      = alLookup (chs "z") mzW ∧
    loadLines parse0 lsW mzW = .run .top m1W ∧
    (loadLines parse0 lsW m1W).isOk = true ∧
    alLookup (chs "p") (LState.objectsOf (loadLines parse0 lsW m1W))
      = alLookup (chs "p") m1W :=
  ⟨by decide,
    (c6_load_additive_idempotent parse0 lsW mzW).1 (chs "z") (by decide),
    by decide,
    ((c6_load_additive_idempotent parse0 lsW mzW).2 m1W (by decide)).1,
    ((c6_load_additive_idempotent parse0 lsW mzW).2 m1W (by decide)).2
      (chs "p")⟩

/-- C1: the save/load round trip of the `player` database does not
restore the object — the loader reads object headers space-delimited
while the writer emits `object=player` (so no block ever starts there),
it instead opens a spurious block at the first indented field line, and
it then panics slicing `[2..]` on the blank separator line the writer
emits after the object. The load ends in the abort state with an empty
objects map, and `get_object("player")` on the loaded database yields
`None` rather than the claimed object. -/
theorem c1_save_load_roundtrip_fails :
    playerRoundTrip = .fatal [] ∧
    (Database.mk (LState.objectsOf playerRoundTrip)
        (chs "save.sosdb")).get_object (chs "player") = none := by
  constructor
  · decide
  · decide

/-- C3 witness: `"ix5"` (separator present but not `:`) aborts, `"q"`
(one character) returns `InvalidValue`. -/
theorem c3_witness :
    ('x' ≠ ':') ∧
    Value.tryFrom (F := Unit) parse0 ('i' :: 'x' :: chs "5") = .fatal ∧
    Value.tryFrom (F := Unit) parse0 ['q'] = .err .InvalidValue :=
  ⟨by decide, (c3_separator_amended parse0).1 'i' 'x' (chs "5") (by decide),
    (c3_separator_amended parse0).2 'q'⟩

end Sosdb
